import Mathlib

/-
Verification of the statement-to-ledger extraction pipeline and the
fuzzy-categorization engine of the Expense Analyzer (src/app.py).

The Python code is shallowly embedded: strings are Lean `String`s
(handled as `List Char` internally, ASCII semantics for case mapping and
whitespace, which covers every input appearing in the code and claims),
monetary values are Python floats modelled by `PyFloat` — finite values
idealized as exact rationals, with `float()` overflow to infinity
modelled at the exact IEEE-754 double boundary — Python `None` is
`Option.none`, and an exception escaping an extraction primitive is
modelled by a boolean flag on the page (the code catches them with
`try`/`except`).
Streamlit display calls (`st.info`, `st.warning`, ...) are pure no-ops;
the single user-visible one that matters to a claim (the
"No transactions extracted" warning) is modelled as a boolean.
-/

namespace ExpenseAnalyzer

/-! ## Character and string primitives (Python `str` semantics, ASCII) -/

/-- Python `\s` / `str.isspace` for the ASCII range: space, tab, newline,
carriage return, vertical tab, form feed. -/
def isPySpace (c : Char) : Bool :=
  c = ' ' || c = '\t' || c = '\n' || c = '\r' || c = '\x0b' || c = '\x0c'

/-- Python `\d` (ASCII digits). -/
def isPyDigit (c : Char) : Bool :=
  '0' ≤ c && c ≤ '9'

/-- Builds the character with code point `n`, given a bound keeping it in
the valid (pre-surrogate) range. -/
def mkAsciiChar (n : Nat) (h : n < 55296) : Char :=
  ⟨⟨⟨n, by omega⟩⟩, Or.inl h⟩

/-- Python `str.lower` on one character (ASCII). -/
def pyLowerChar (c : Char) : Char :=
  if h : 65 ≤ c.toNat ∧ c.toNat ≤ 90 then
    mkAsciiChar (c.toNat + 32) (by omega)
  else c

/-- Python `str.upper` on one character (ASCII). -/
def pyUpperChar (c : Char) : Char :=
  if h : 97 ≤ c.toNat ∧ c.toNat ≤ 122 then
    mkAsciiChar (c.toNat - 32) (by omega)
  else c

/-- Python `str.strip()` on a character list: drop whitespace from both
ends. -/
def pyStripL (cs : List Char) : List Char :=
  ((cs.dropWhile isPySpace).reverse.dropWhile isPySpace).reverse

def strOf (cs : List Char) : String := ⟨cs⟩

def pyStrip (s : String) : String := strOf (pyStripL s.data)

def pyToLower (s : String) : String := strOf (s.data.map pyLowerChar)

def pyToUpper (s : String) : String := strOf (s.data.map pyUpperChar)

/-- Python substring containment `pat in l` on character lists. -/
def containsL (l pat : List Char) : Bool :=
  match l with
  | [] => pat.isPrefixOf []
  | _ :: rest => pat.isPrefixOf l || containsL rest pat

/-- Python `text.split("\n")` on a character list. -/
def splitNl (cs : List Char) : List (List Char) :=
  cs.foldr
    (fun c acc =>
      if c = '\n' then [] :: acc
      else
        match acc with
        | [] => [[c]]
        | a :: rest => (c :: a) :: rest)
    [[]]

/-! ## `parse_amount_field` (src/app.py lines 41-63)

`float()` on the cleaned text (which contains only digits, `.` and `-`)
is modelled exactly over that restricted alphabet. A Python float is a
`PyFloat`: a finite value — idealized as the exact decimal rational,
since binary rounding and underflow-to-zero never change a comparison
or acceptance decision made by the code — or an infinity, which
`float()` produces without raising when the decimal magnitude reaches
the IEEE-754 double overflow bound (e.g. `float("9" * 400)` is `inf`). -/

/-- A value of Python `float` as produced by `float()` here: finite
(exact rational) or an infinity from overflow. NaN cannot arise on this
code path. -/
inductive PyFloat where
  | finite (q : ℚ)
  | inf
  | negInf
deriving DecidableEq, Repr

/-- Python `float` ordering on the values occurring here:
`-inf < finite < inf`. -/
def PyFloat.le : PyFloat → PyFloat → Prop
  | negInf, _ => True
  | _, inf => True
  | finite p, finite q => p ≤ q
  | inf, finite _ => False
  | inf, negInf => False
  | finite _, negInf => False

instance : LE PyFloat := ⟨PyFloat.le⟩

/-- Python unary minus on a float. -/
def PyFloat.neg : PyFloat → PyFloat
  | finite q => finite (-q)
  | inf => negInf
  | negInf => inf

/-- Python `abs()` on a float (`abs(-inf) = inf`). -/
def PyFloat.abs : PyFloat → PyFloat
  | finite q => finite |q|
  | inf => inf
  | negInf => inf

/-- The smallest decimal magnitude at which `strtod` — and hence Python
`float()` — overflows to infinity: `2^1024 - 2^970`, the midpoint above
the largest finite double `2^1024 - 2^971` (round-to-nearest-even sends
the midpoint itself out of range). Written as a literal so that it
evaluates directly. -/
def dblOverflowNum : ℕ := 179769313486231580793728971405303415079934132710037826936173778980444968292764750946649017977587207096330286416692887910946555547851940402630657488671505820681908902000708383676273854845817711531764475730270069855571366959622842914819860834936475292719074168444365510704342711559699508093042880177904174497792

def dblOverflow : ℚ := mkRat dblOverflowNum 1

/-- A nonnegative parsed decimal magnitude as a Python float: values at
or above the overflow bound become `inf`. -/
def pyFloatOfMag (q : ℚ) : PyFloat :=
  if dblOverflow ≤ q then PyFloat.inf else PyFloat.finite q

/-- Numeric value of a digit string (most significant first). -/
def digitsVal (ds : List Char) : Nat :=
  ds.foldl (fun acc c => acc * 10 + (c.toNat - 48)) 0

/-- Python `float()` on a string over the alphabet `[0-9.-]`, without a
leading sign: `digits`, `digits.digits`, `.digits` or `digits.`; anything
else (empty, bare `.`, a second `.`, an embedded `-`) raises, which is
`none` here. An overflowing magnitude yields `inf`, not an error. -/
def parseUnsigned (cs : List Char) : Option PyFloat :=
  let intPart := cs.takeWhile isPyDigit
  let rest := cs.dropWhile isPyDigit
  match rest with
  | [] =>
    if intPart.isEmpty then none
    else some (pyFloatOfMag (mkRat (digitsVal intPart) 1))
  | '.' :: frac =>
    if frac.all isPyDigit then
      if intPart.isEmpty && frac.isEmpty then none
      else some (pyFloatOfMag
        (mkRat (digitsVal intPart * 10 ^ frac.length + digitsVal frac) (10 ^ frac.length)))
    else none
  | _ => none

/-- Python `float()` on a string over the alphabet `[0-9.-]`: one
optional leading `-`, then an unsigned decimal (so `-` over an
overflowing magnitude gives `-inf`). -/
def pyFloat? (cs : List Char) : Option PyFloat :=
  match cs with
  | '-' :: rest => (parseUnsigned rest).map PyFloat.neg
  | _ => parseUnsigned cs

/-- First cleaning pass of `parse_amount_field`:
`re.sub(r"INR|\s|CR|DR|,", "", s)` on the already-uppercased input
(left-to-right, non-overlapping, alternatives tried in order). -/
def cleanTokens : List Char → List Char
  | 'I' :: 'N' :: 'R' :: cs => cleanTokens cs
  | 'C' :: 'R' :: cs => cleanTokens cs
  | 'D' :: 'R' :: cs => cleanTokens cs
  | c :: cs => if isPySpace c || c = ',' then cleanTokens cs else c :: cleanTokens cs
  | [] => []

/-- Second cleaning pass: `re.sub(r"[^\d\.\-]", "", clean)` composed with
the first. -/
def amountClean (u : List Char) : List Char :=
  (cleanTokens u).filter (fun c => isPyDigit c || c = '.' || c = '-')

/-- `str(s).upper().strip()` as a character list. -/
def normUpper (s : String) : List Char :=
  pyStripL (s.data.map pyUpperChar)

/-- `parse_amount_field(s)` (src/app.py lines 41-63). Returns
`(amount, type)` where `type` is `"DR"`, `"CR"` or `""`; a `None`
amount is the rejection case. -/
def parse_amount_field (s : Option String) : Option PyFloat × String :=
  match s with
  | none => (none, "")
  | some s0 =>
    let u := normUpper s0
    let dr := containsL u ['D', 'R'] && !(containsL u ['C', 'R'])
    let cr := containsL u ['C', 'R'] && !(containsL u ['D', 'R'])
    let clean := amountClean u
    if clean.isEmpty then (none, "")
    else
      match pyFloat? clean with
      | none => (none, "")
      | some val =>
        if cr then (some (PyFloat.neg (PyFloat.abs val)), "CR")
        else if dr then (some (PyFloat.abs val), "DR")
        else (some val, "")

/-! ## The line regex patterns (src/app.py lines 76-80)

All three patterns have the shape `(DATE)\s+(.+?)\s+(AMOUNT)` with
`AMOUNT = -?\d[\d,]*\.\d{2}`, matched by `pat.match(line)` (anchored at
the start, trailing text ignored). The matcher below reproduces the
backtracking order of Python's engine for this shape: the date
subpattern is deterministic, the first `\s+` is tried longest-first, the
lazy `(.+?)` shortest-first, the second `\s+` longest-first; inside the
amount, `[\d,]*` maximal munch is equivalent because shortening it
always leaves a digit-or-comma where `\.` is required. -/

/-- Matches `\d{n}` exactly, returning consumed characters and the rest. -/
def takeDigits (n : Nat) (cs : List Char) : Option (List Char × List Char) :=
  let pre := cs.take n
  if pre.length = n && pre.all isPyDigit then some (pre, cs.drop n) else none

/-- Date subpattern `\d{2}/\d{2}/\d{4}` of the first line pattern. -/
def matchDateSlash (cs : List Char) : Option (List Char × List Char) :=
  match takeDigits 2 cs with
  | some (d1, r1) =>
    match r1 with
    | '/' :: r2 =>
      match takeDigits 2 r2 with
      | some (d2, r3) =>
        match r3 with
        | '/' :: r4 =>
          match takeDigits 4 r4 with
          | some (d3, r5) => some (d1 ++ '/' :: (d2 ++ '/' :: d3), r5)
          | none => none
        | _ => none
      | none => none
    | _ => none
  | none => none

/-- Date subpattern `\d{2}-\d{2}-\d{4}` of the second line pattern. -/
def matchDateDash (cs : List Char) : Option (List Char × List Char) :=
  match takeDigits 2 cs with
  | some (d1, r1) =>
    match r1 with
    | '-' :: r2 =>
      match takeDigits 2 r2 with
      | some (d2, r3) =>
        match r3 with
        | '-' :: r4 =>
          match takeDigits 4 r4 with
          | some (d3, r5) => some (d1 ++ '-' :: (d2 ++ '-' :: d3), r5)
          | none => none
        | _ => none
      | none => none
    | _ => none
  | none => none

/-- `[A-Za-z]` character class. -/
def isAsciiAlpha (c : Char) : Bool :=
  ('A' ≤ c && c ≤ 'Z') || ('a' ≤ c && c ≤ 'z')

/-- Date subpattern `[A-Za-z]{3}\s+\d{1,2},\s+\d{4}` of the third line
pattern. `\d{1,2}` tries two digits first, then one; both internal `\s+`
are maximal munch (the following classes are disjoint from `\s`). -/
def matchDateMon (cs : List Char) : Option (List Char × List Char) :=
  let al := cs.take 3
  if al.length = 3 && al.all isAsciiAlpha then
    let r1 := cs.drop 3
    let sp1 := r1.takeWhile isPySpace
    if sp1.isEmpty then none
    else
      let r2 := r1.dropWhile isPySpace
      let dayRest : Option (List Char × List Char) :=
        match takeDigits 2 r2 with
        | some (dd, r3) =>
          match r3 with
          | ',' :: r4 => some (dd ++ [','], r4)
          | _ =>
            match takeDigits 1 r2 with
            | some (d1, r3b) =>
              match r3b with
              | ',' :: r4 => some (d1 ++ [','], r4)
              | _ => none
            | none => none
        | none =>
          match takeDigits 1 r2 with
          | some (d1, r3b) =>
            match r3b with
            | ',' :: r4 => some (d1 ++ [','], r4)
            | _ => none
          | none => none
      match dayRest with
      | some (dpart, r4) =>
        let sp2 := r4.takeWhile isPySpace
        if sp2.isEmpty then none
        else
          let r5 := r4.dropWhile isPySpace
          match takeDigits 4 r5 with
          | some (yy, r6) => some (al ++ sp1 ++ dpart ++ sp2 ++ yy, r6)
          | none => none
      | none => none
  else none

/-- Amount subpattern `-?\d[\d,]*\.\d{2}` at the start of the input. -/
def matchAmt (cs : List Char) : Option (List Char × List Char) :=
  let (neg, cs1) : List Char × List Char :=
    match cs with
    | '-' :: r => (['-'], r)
    | _ => ([], cs)
  match cs1 with
  | c :: r1 =>
    if isPyDigit c then
      let run := r1.takeWhile (fun x => isPyDigit x || x = ',')
      let r2 := r1.dropWhile (fun x => isPyDigit x || x = ',')
      match r2 with
      | '.' :: r3 =>
        match takeDigits 2 r3 with
        | some (dd, r4) => some (neg ++ c :: (run ++ '.' :: dd), r4)
        | none => none
      | _ => none
    else none
  | [] => none

/-- Length of the leading whitespace run. -/
def spacesRun (cs : List Char) : Nat :=
  (cs.takeWhile isPySpace).length

/-- Second `\s+` followed by the amount: whitespace length `k` is tried
longest-first down to 1. -/
def trySpAmt : Nat → List Char → Option (List Char × List Char)
  | 0, _ => none
  | k + 1, cs =>
    match matchAmt (cs.drop (k + 1)) with
    | some (a, r) => some (a, r)
    | none => trySpAmt k cs

/-- Lazy `(.+?)` expansion: the merchant group grows one character at a
time (never across a newline, which `.` does not match), trying
`\s+AMOUNT` on the remainder after each extension. -/
def tryMerchLoop (mrev : List Char) (rest : List Char) :
    Option (List Char × List Char × List Char) :=
  match trySpAmt (spacesRun rest) rest with
  | some (a, r) => some (mrev.reverse, a, r)
  | none =>
    match rest with
    | [] => none
    | c :: rest2 => if c = '\n' then none else tryMerchLoop (c :: mrev) rest2

/-- First `\s+` (longest-first) followed by the lazy merchant and the
amount. -/
def tryS1 : Nat → List Char → Option (List Char × List Char × List Char)
  | 0, _ => none
  | k + 1, rest =>
    let afterS1 := rest.drop (k + 1)
    match afterS1 with
    | c :: r2 =>
      if c = '\n' then tryS1 k rest
      else
        match tryMerchLoop [c] r2 with
        | some r => some r
        | none => tryS1 k rest
    | [] => tryS1 k rest

/-- `pat.match(line)` for one line pattern: returns the three captured
groups `(date, merchant, amount)` when the pattern matches a prefix of
the line. -/
def matchLinePat (dateM : List Char → Option (List Char × List Char))
    (cs : List Char) : Option (List Char × List Char × List Char) :=
  match dateM cs with
  | none => none
  | some (d, rest) =>
    match tryS1 (spacesRun rest) rest with
    | some (m, a, _) => some (d, m, a)
    | none => none

/-! ## Data model of `extract_transactions_from_pdf` (src/app.py 68-216) -/

/-- One emitted transaction row
`[Date, Merchant, Amount, Type, Account]`. -/
structure Txn where
  date : String
  merchant : String
  amount : PyFloat
  ttype : String
  account : String
deriving DecidableEq, Repr

/-- One positioned word from `page.extract_words()`; only `text`, `x0`
and `top` are read by the code. -/
structure Word where
  text : String
  x0 : ℚ
  top : ℚ
deriving DecidableEq, Repr

/-- One page of the document, as seen through the pdfplumber primitives.
`tableRaises`, `textRaises` and `wordsRaises` model an exception raised
by `page.extract_table()`, `page.extract_text()` and
`page.extract_words()` respectively; `table` is the returned grid
(`none` for Python `None`), whose cells may themselves be `None`;
`text` is the extracted text (`none` for `None`). -/
structure Page where
  tableRaises : Bool
  table : Option (List (List (Option String)))
  textRaises : Bool
  text : Option String
  wordsRaises : Bool
  words : List Word

/-! ## Strategy 1: table extraction (src/app.py 98-111) -/

/-- Python truthiness of an optional string (`None` and `""` are falsy). -/
def truthyS : Option String → Bool
  | none => false
  | some s => s ≠ ""

/-- Python `a or b` on optional strings. -/
def pyOrS (a b : Option String) : Option String :=
  if truthyS a then a else b

/-- `dict(zip(headers, row)).get(k)`: the zip truncates to the shorter
list, a later duplicate header overwrites an earlier one, and a missing
key or a `None` cell both come out as `none` (both are falsy and are
only used through truthiness and `.strip()` on the truthy path). -/
def dictGet (pairs : List (String × Option String)) (k : String) : Option String :=
  pairs.foldl (fun acc p => if p.1 = k then p.2 else acc) none

/-- One table row: accepted iff the date, description and amount
aliases all resolve to truthy values and the amount parses. -/
def rowTxn? (acct : String) (hs : List String) (row : List (Option String)) :
    Option Txn :=
  let rd := List.zip hs row
  let dateRaw := pyOrS (dictGet rd "date")
    (pyOrS (dictGet rd "transaction date") (dictGet rd "txn date"))
  let desc := pyOrS (dictGet rd "description")
    (pyOrS (dictGet rd "merchant") (dictGet rd "narration"))
  let amtRaw := pyOrS (dictGet rd "amount")
    (pyOrS (dictGet rd "debit") (dictGet rd "credit"))
  match parse_amount_field amtRaw with
  | (some amt, tt) =>
    if truthyS dateRaw && truthyS desc then
      some ⟨pyStrip (dateRaw.getD ""), pyStrip (desc.getD ""), amt, tt, acct⟩
    else none
  | (none, _) => none

/-- Rows accepted from a detected table: the first row is the header
(`(h or "").strip().lower()` per cell), the rest are data rows. -/
def tableRows (acct : String) (table : List (List (Option String))) : List Txn :=
  match table with
  | [] => []
  | headers :: rows =>
    let hs := headers.map (fun h => pyToLower (pyStrip (h.getD "")))
    rows.filterMap (rowTxn? acct hs)

/-- The effective table for a page: an exception in
`page.extract_table()` is caught and leaves `table = None`. -/
def effTable (p : Page) : Option (List (List (Option String))) :=
  if p.tableRaises then none else p.table

/-- The transactions the table strategy contributes to a page:
nonempty only when `table and len(table) > 1` holds. -/
def pageTableTxns (acct : String) (p : Page) : List Txn :=
  match effTable p with
  | some t => if t.length > 1 then tableRows acct t else []
  | none => []

/-! ## Strategy 2: line-regex extraction (src/app.py 114-137) -/

/-- The per-line pattern loop: patterns are tried in order; on a match
whose amount parses, exactly one transaction is emitted and the loop
breaks; a match with unparseable amount falls through to the next
pattern. -/
def lineTxnPats (acct : String) :
    List (List Char → Option (List Char × List Char)) → List Char → Option Txn
  | [], _ => none
  | pm :: pms, line =>
    match matchLinePat pm line with
    | some (d, m, a) =>
      match parse_amount_field (some (strOf a)) with
      | (some v, tt) =>
        some ⟨strOf (pyStripL d), strOf (pyStripL m), v, tt, acct⟩
      | (none, _) => lineTxnPats acct pms line
    | none => lineTxnPats acct pms line

/-- The ordered `regex_patterns` list (src/app.py 76-80), reduced to
their date subpatterns (the shared shape is handled by
`matchLinePat`). -/
def linePatterns : List (List Char → Option (List Char × List Char)) :=
  [matchDateSlash, matchDateDash, matchDateMon]

/-- Line-regex strategy over a page text: split on newlines, strip each
line, drop blanks, and emit at most one transaction per line. -/
def lineTxns (acct : String) (text : String) : List Txn :=
  let lines := ((splitNl text.data).map pyStripL).filter (fun l => !l.isEmpty)
  lines.filterMap (lineTxnPats acct linePatterns)

/-! ## Strategy 3: word-position column reconstruction
(src/app.py 140-208) -/

/-- Python `round()` to an integer: round-half-to-even. -/
def pyRound (q : ℚ) : ℤ :=
  let f := ⌊q⌋
  let frac := q - (f : ℚ)
  if frac < 1 / 2 then f
  else if (1 : ℚ) / 2 < frac then f + 1
  else if f % 2 = 0 then f else f + 1

/-- Insertion into a sorted integer list. -/
def insertSorted (x : ℤ) : List ℤ → List ℤ
  | [] => [x]
  | y :: ys => if x ≤ y then x :: y :: ys else y :: insertSorted x ys

/-- `sorted(set(l))`: ascending list of the distinct values. -/
def sortedUniq (l : List ℤ) : List ℤ :=
  l.eraseDups.foldr insertSorted []

/-- Greedy clustering of the sorted x-positions: split whenever a
consecutive gap exceeds 30 (src/app.py 147-156). -/
def clusterGo (lastV : ℤ) (curRev : List ℤ) (accRev : List (List ℤ)) :
    List ℤ → List (List ℤ)
  | [] => (curRev.reverse :: accRev).reverse
  | x :: xs =>
    if x - lastV ≤ 30 then clusterGo x (x :: curRev) accRev xs
    else clusterGo x [x] (curRev.reverse :: accRev) xs

def clusterize : List ℤ → List (List ℤ)
  | [] => []
  | x :: xs => clusterGo x [x] [] xs

/-- `statistics.mean` of a cluster of integer positions. -/
def meanQ (l : List ℤ) : ℚ :=
  ((l.sum : ℚ)) / (l.length : ℚ)

/-- Index of the first center minimizing the distance to `x`
(Python `min(range(len(centers)), key=...)`). -/
def argminGo (x : ℚ) : List ℚ → Nat → Nat → ℚ → Nat
  | [], _, best, _ => best
  | c :: cs, i, best, bestd =>
    if |x - c| < bestd then argminGo x cs (i + 1) i |x - c|
    else argminGo x cs (i + 1) best bestd

def argminAbs (x : ℚ) : List ℚ → Nat
  | [] => 0
  | c :: cs => argminGo x cs 1 0 |x - c|

/-- Column index a word is assigned to (0 when there are no centers). -/
def colIdx (centers : List ℚ) (w : Word) : Nat :=
  if centers.isEmpty then 0 else argminAbs w.x0 centers

/-- The reconstructed cell texts of row `t`, one field per virtual
column, each `" ".join(texts).strip()` in word order. -/
def rowFields (words : List Word) (centers : List ℚ) (t : ℤ) : List (List Char) :=
  (List.range centers.length).map (fun i =>
    pyStripL (List.intercalate [' ']
      (((words.filter (fun w => pyRound w.top = t && colIdx centers w = i)).map
        (fun w => w.text.data)))))

/-- Leftmost occurrence of the `\d{2}/\d{2}/\d{4}` shape
(`date_regex.search`), returning the matched substring. -/
def searchDate : List Char → Option (List Char)
  | [] => none
  | c :: cs =>
    match matchDateSlash (c :: cs) with
    | some (d, _) => some d
    | none => searchDate cs

/-- Does the field contain an `[\d,]+\.\d{2}` shaped substring
(`re.search`)? Maximal munch of `[\d,]+` at each start position is
equivalent for the same reason as in `matchAmt`. -/
def hasAmtSub : List Char → Bool
  | [] => false
  | c :: cs =>
    (let run := (c :: cs).takeWhile (fun x => isPyDigit x || x = ',')
     !run.isEmpty &&
       (match (c :: cs).drop run.length with
        | '.' :: d1 :: d2 :: _ => isPyDigit d1 && isPyDigit d2
        | _ => false)) ||
    hasAmtSub cs

/-- `date_field`: scan the fields left to right, skipping empty ones,
and take the first date-shaped substring found. -/
def findDateField : List (List Char) → Option (List Char)
  | [] => none
  | f :: fs =>
    if !f.isEmpty then
      match searchDate f with
      | some d => some d
      | none => findDateField fs
    else findDateField fs

/-- `amount_field`: the first (whole) field containing an amount-shaped
substring; callers pass the reversed field list (rightmost first). -/
def findAmtField : List (List Char) → Option (List Char)
  | [] => none
  | f :: fs => if hasAmtSub f then some f else findAmtField fs

/-- First index whose field contains `sub` as a substring
(`next((i for i,f in enumerate(fields) if sub in f), None)`). -/
def idxOfSub (sub : List Char) : List (List Char) → Nat → Option Nat
  | [], _ => none
  | f :: fs, i => if containsL f sub then some i else idxOfSub sub fs (i + 1)

/-- One reconstructed row (src/app.py 177-203): needs a date-shaped
substring in some field and an amount-shaped substring in some field;
the merchant is the join of the remaining nonempty fields. -/
def spatialRowTxn? (acct : String) (fields : List (List Char)) : Option Txn :=
  let dateField := findDateField fields
  let amtField := findAmtField fields.reverse
  match amtField, dateField with
  | some af, some df =>
    match parse_amount_field (some (strOf af)) with
    | (some amt, tt) =>
      let dateIdx := idxOfSub df fields 0
      let amountIdx := idxOfSub af fields 0
      let parts := ((fields.enum.filter (fun p =>
        some p.1 ≠ dateIdx && some p.1 ≠ amountIdx && !p.2.isEmpty)).map
          (fun p => p.2))
      let merchant := if !parts.isEmpty then pyStripL (List.intercalate [' '] parts) else []
      some ⟨strOf df, strOf merchant,
        if tt ≠ "CR" then amt else PyFloat.neg (PyFloat.abs amt), tt, acct⟩
    | (none, _) => none
  | _, _ => none

/-- Word-position strategy for a page: runs only with more than four
words. -/
def spatialRows (acct : String) (words : List Word) : List Txn :=
  if words.length > 4 then
    let x0s := sortedUniq (words.map (fun w => pyRound w.x0))
    let centers := (clusterize x0s).map meanQ
    let tks := sortedUniq (words.map (fun w => pyRound w.top))
    tks.filterMap (fun t => spatialRowTxn? acct (rowFields words centers t))
  else []

/-! ## The per-page orchestrator and the document loop
(src/app.py 82-216) -/

/-- Which strategies a page's processing reached. -/
inductive Strat
  | table
  | textLine
  | spatial
deriving DecidableEq, Repr

/-- Strategies 2 and 3 for a page. An uncaught exception from
`page.extract_text()` or `page.extract_words()` propagates to the
document-level handler; this is the `none` result. The strategy trace
records which strategy blocks were reached. -/
def processPageText (acct : String) (p : Page) :
    Option (List Txn × List Strat) :=
  if p.textRaises then none
  else
    let text := p.text.getD ""
    let ts := if !(pyStripL text.data).isEmpty then lineTxns acct text else []
    if !ts.isEmpty then some (ts, [Strat.table, Strat.textLine])
    else if p.wordsRaises then none
    else some (spatialRows acct p.words, [Strat.table, Strat.textLine, Strat.spatial])

/-- One page of the loop: the table strategy short-circuits the page
(`continue`) whenever the detected grid has more than one row, even if
no row was accepted. -/
def processPage (acct : String) (p : Page) : Option (List Txn × List Strat) :=
  match effTable p with
  | some t =>
    if t.length > 1 then some (tableRows acct t, [Strat.table])
    else processPageText acct p
  | none => processPageText acct p

/-- The document loop inside the outer `try`: pages are processed in
order; an exception escaping a page lands in the outer `except`, which
keeps the transactions accumulated so far and stops. -/
def extractDocGo (acct : String) (acc : List Txn) : List Page → List Txn
  | [] => acc
  | p :: ps =>
    match processPage acct p with
    | none => acc
    | some (ts, _) => extractDocGo acct (acc ++ ts) ps

/-- `extract_transactions_from_pdf`: the resulting ledger rows. -/
def extractDoc (acct : String) (pages : List Page) : List Txn :=
  extractDocGo acct [] pages

/-- The function result together with whether the
"No transactions extracted" warning was emitted (src/app.py 213-216). -/
def extractResult (acct : String) (pages : List Page) : List Txn × Bool :=
  let r := extractDoc acct pages
  (r, r.isEmpty)

/-! ## Categorizer (src/app.py 18-34) and vendor persistence (228-233)

The `rapidfuzz` similarity scorer is an external primitive; it is
abstracted as a score function on a 0-100 scale, exactly as the spec
treats it. `process.extractOne` keeps the first choice achieving the
maximal score at or above the cutoff. -/

def extractStep (score : String → String → ℚ) (q : String) (cutoff : ℚ)
    (acc : Option (String × ℚ)) (c : String) : Option (String × ℚ) :=
  match acc with
  | none => if cutoff ≤ score q c then some (c, score q c) else none
  | some bp => if bp.2 < score q c then some (c, score q c) else some bp

/-- `process.extractOne(q, choices, score_cutoff=cutoff)`. -/
def extractOne (score : String → String → ℚ) (q : String)
    (choices : List String) (cutoff : ℚ) : Option (String × ℚ) :=
  choices.foldl (extractStep score q cutoff) none

/-- `vendor_map.loc[vendor_map["merchant"].str.lower() == k, "category"].iloc[0]`:
the category of the first vocabulary row whose lowercased merchant is
`k`. The key always comes from the choice list, so the fallback branch
is unreachable. -/
def lookupCat (vocab : List (String × String)) (k : String) : String :=
  match vocab.find? (fun e => pyToLower e.1 = k) with
  | some e => e.2
  | none => "Others"

/-- `get_category(merchant)`: lowercase the merchant, fuzzy-match it
against the lowercased vocabulary keys with cutoff 80, return the
matched row's category, else `"Others"`. (The `except` branch of the
code guards pandas lookup failures, which have no counterpart in the
list model; an empty vocabulary flows through `extractOne` returning
`None`, as in Python.) -/
def get_category (score : String → String → ℚ) (vocab : List (String × String))
    (merchant : String) : String :=
  let m := pyToLower merchant
  match extractOne score m (vocab.map (fun e => pyToLower e.1)) 80 with
  | some kb => lookupCat vocab kb.1
  | none => "Others"

/-- `drop_duplicates(subset=["merchant"], keep="last")`: keep only the
last occurrence of each merchant key, preserving the order of kept
rows. -/
def dropDupKeepLast : List (String × String) → List (String × String)
  | [] => []
  | e :: rest =>
    if rest.any (fun e2 => e2.1 = e.1) then dropDupKeepLast rest
    else e :: dropDupKeepLast rest

/-- `add_new_vendor(merchant, category)`: append
`(merchant.lower(), category)` and deduplicate keeping the last
occurrence (the `to_csv` persistence is a side effect outside the
model). -/
def add_new_vendor (vocab : List (String × String)) (merchant category : String) :
    List (String × String) :=
  dropDupKeepLast (vocab ++ [(pyToLower merchant, category)])

/-! ## Spec-modelled OCR fallback -/

/-- Modelled from the spec: the OCR fallback of spec sections 4.5 and
4.6 (rasterize pages, run OCR, re-apply the line-pattern extractor, and
replace an empty document result) is absent from src/app.py, whose
empty-result handling only emits a warning; this definition follows the
spec's words, with the OCR engine abstracted as a page-to-text
primitive, for comparison against `extractDoc`. -/
def specExtractWithOCR (ocr : Page → String) (acct : String)
    (pages : List Page) : List Txn :=
  let r := extractDoc acct pages
  if r.isEmpty then pages.flatMap (fun p => lineTxns acct (ocr p)) else r

/-! ## Concrete documents used by witnesses and counterexamples -/

/-- A page whose text holds one well-formed statement line. -/
def pageGood : Page :=
  ⟨false, none, false, some "01/08/2025 SWIGGY ORDER 452.00", false, []⟩

/-- A page on which `page.extract_text()` raises. -/
def pageRaise : Page := ⟨false, none, true, none, false, []⟩

/-- A page with no table, no text and no words. -/
def pageBlank : Page := ⟨false, none, false, none, false, []⟩

/-- A page with a well-formed one-row table. -/
def pageTable : Page :=
  ⟨false,
    some [[some "date", some "description", some "amount"],
          [some "01/08/2025", some "Netflix", some "649.00"]],
    false, none, false, []⟩

/-- A page whose table row has a whitespace-only description cell. -/
def pageBlankDesc : Page :=
  ⟨false,
    some [[some "date", some "description", some "amount"],
          [some "01/01/2024", some " ", some "1.00"]],
    false, none, false, []⟩

/-- Helper for claim 3: a page whose processing raises out of the page
aborts the whole remaining document, whatever was accumulated before. -/
theorem extractDocGo_append_abort (acct : String) (p : Page)
    (hp : processPage acct p = none) :
    ∀ (ps1 : List Page) (acc : List Txn) (ps2 : List Page),
      extractDocGo acct acc (ps1 ++ p :: ps2) = extractDocGo acct acc ps1
  | [], acc, ps2 => by simp [extractDocGo, hp]
  | q :: ps1, acc, ps2 => by
    simp only [List.cons_append, extractDocGo]
    cases hq : processPage acct q with
    | none => rfl
    | some pr => exact extractDocGo_append_abort acct p hp ps1 (acc ++ pr.1) ps2

/-- An exact-match similarity scorer on the 0-100 scale, used to
instantiate the abstract scorer in witnesses. -/
def scoreExact (a b : String) : ℚ := if a = b then 100 else 0

/-- Characterization of the `extractOne` fold: starting from a
well-formed accumulator, the fold returns `none` exactly when it
started from `none` and every choice scores below the cutoff, and
otherwise returns a choice (or the accumulator) achieving a score at or
above the cutoff that dominates every choice scanned. -/
theorem extractOne_fold (score : String → String → ℚ) (q : String) (cutoff : ℚ) :
    ∀ (choices : List String) (acc : Option (String × ℚ)),
      (∀ p, acc = some p → p.2 = score q p.1 ∧ cutoff ≤ p.2) →
      (List.foldl (extractStep score q cutoff) acc choices = none →
          acc = none ∧ ∀ k ∈ choices, score q k < cutoff) ∧
      (∀ p2, List.foldl (extractStep score q cutoff) acc choices = some p2 →
          p2.2 = score q p2.1 ∧ cutoff ≤ p2.2 ∧
          (acc = some p2 ∨ p2.1 ∈ choices) ∧
          (∀ k ∈ choices, score q k ≤ p2.2) ∧
          (∀ p0, acc = some p0 → p0.2 ≤ p2.2))
  | [], acc, hacc => by
    constructor
    · intro h
      exact ⟨h, by simp⟩
    · intro p2 h
      simp only [List.foldl_nil] at h
      exact ⟨(hacc p2 h).1, (hacc p2 h).2, Or.inl h, by simp,
        fun p0 hp0 => by rw [h] at hp0; rw [Option.some_inj.mp hp0]⟩
  | c :: cs, acc, hacc => by
    have hstep : ∀ p, extractStep score q cutoff acc c = some p →
        p.2 = score q p.1 ∧ cutoff ≤ p.2 := by
      intro p hp
      cases hacc2 : acc with
      | none =>
        rw [hacc2] at hp
        simp only [extractStep] at hp
        by_cases hcut : cutoff ≤ score q c
        · rw [if_pos hcut] at hp
          obtain rfl := Option.some_inj.mp hp
          exact ⟨rfl, hcut⟩
        · rw [if_neg hcut] at hp
          exact absurd hp (by simp)
      | some bp =>
        rw [hacc2] at hp
        simp only [extractStep] at hp
        by_cases hlt : bp.2 < score q c
        · rw [if_pos hlt] at hp
          obtain rfl := Option.some_inj.mp hp
          exact ⟨rfl, le_of_lt (lt_of_le_of_lt (hacc bp hacc2).2 hlt)⟩
        · rw [if_neg hlt] at hp
          obtain rfl := Option.some_inj.mp hp
          exact hacc bp hacc2
    obtain ⟨ih1, ih2⟩ :=
      extractOne_fold score q cutoff cs (extractStep score q cutoff acc c) hstep
    constructor
    · intro h
      simp only [List.foldl_cons] at h
      obtain ⟨hnone, hall⟩ := ih1 h
      cases hacc2 : acc with
      | none =>
        rw [hacc2] at hnone
        simp only [extractStep] at hnone
        by_cases hcut : cutoff ≤ score q c
        · rw [if_pos hcut] at hnone
          exact absurd hnone (by simp)
        · refine ⟨rfl, ?_⟩
          intro k hk
          rcases List.mem_cons.mp hk with rfl | hk2
          · exact lt_of_not_le hcut
          · exact hall k hk2
      | some bp =>
        rw [hacc2] at hnone
        simp only [extractStep] at hnone
        by_cases hlt : bp.2 < score q c
        · rw [if_pos hlt] at hnone
          exact absurd hnone (by simp)
        · rw [if_neg hlt] at hnone
          exact absurd hnone (by simp)
    · intro p2 h
      simp only [List.foldl_cons] at h
      obtain ⟨hsc, hcut2, hmem, hmax, hge⟩ := ih2 p2 h
      have hcsc : score q c ≤ p2.2 := by
        cases hacc2 : acc with
        | none =>
          rw [hacc2] at hge
          simp only [extractStep] at hge
          by_cases hcut : cutoff ≤ score q c
          · rw [if_pos hcut] at hge
            exact hge (c, score q c) rfl
          · exact le_trans (le_of_lt (lt_of_not_le hcut)) hcut2
        | some bp =>
          rw [hacc2] at hge
          simp only [extractStep] at hge
          by_cases hlt : bp.2 < score q c
          · rw [if_pos hlt] at hge
            exact hge (c, score q c) rfl
          · rw [if_neg hlt] at hge
            exact le_trans (le_of_not_lt hlt) (hge bp rfl)
      refine ⟨hsc, hcut2, ?_, ?_, ?_⟩
      · rcases hmem with hup | hin
        · cases hacc2 : acc with
          | none =>
            rw [hacc2] at hup
            simp only [extractStep] at hup
            by_cases hcut : cutoff ≤ score q c
            · rw [if_pos hcut] at hup
              obtain rfl := (Option.some_inj.mp hup).symm
              exact Or.inr (List.mem_cons_self ..)
            · rw [if_neg hcut] at hup
              exact absurd hup (by simp)
          | some bp =>
            rw [hacc2] at hup
            simp only [extractStep] at hup
            by_cases hlt : bp.2 < score q c
            · rw [if_pos hlt] at hup
              obtain rfl := (Option.some_inj.mp hup).symm
              exact Or.inr (List.mem_cons_self ..)
            · rw [if_neg hlt] at hup
              exact Or.inl hup
        · exact Or.inr (List.mem_cons_of_mem _ hin)
      · intro k hk
        rcases List.mem_cons.mp hk with rfl | hk2
        · exact hcsc
        · exact hmax k hk2
      · intro p0 hp0
        rw [hp0] at hge
        simp only [extractStep] at hge
        by_cases hlt : p0.2 < score q c
        · rw [if_pos hlt] at hge
          exact le_trans (le_of_lt hlt) (hge (c, score q c) rfl)
        · rw [if_neg hlt] at hge
          exact hge p0 rfl

/-- When the last choice scores at or above the cutoff and strictly
above every earlier choice, `extractOne` returns it. -/
theorem extractOne_append_last (score : String → String → ℚ) (q : String)
    (cutoff : ℚ) (l : List String) (k : String)
    (hc : cutoff ≤ score q k) (hlt : ∀ x ∈ l, score q x < score q k) :
    extractOne score q (l ++ [k]) cutoff = some (k, score q k) := by
  unfold extractOne
  rw [List.foldl_append]
  cases hR : List.foldl (extractStep score q cutoff) none l with
  | none =>
    simp only [List.foldl_cons, List.foldl_nil, extractStep]
    rw [if_pos hc]
  | some p2 =>
    obtain ⟨hsc, -, hmem, -, -⟩ :=
      ((extractOne_fold score q cutoff l none (by simp)).2) p2 hR
    rcases hmem with hup | hin
    · exact absurd hup (by simp)
    · have hp2lt : p2.2 < score q k := by
        rw [hsc]
        exact hlt p2.1 hin
      simp only [List.foldl_cons, List.foldl_nil, extractStep]
      rw [if_pos hp2lt]

/-- Claim C7: `get_category` lowercases the merchant and fuzzy-matches
it against the lowercased vocabulary keys: with an empty vocabulary, or
whenever every key scores below 80, it returns the sentinel `"Others"`;
and whenever some key reaches 80, it returns the category looked up for
a best-scoring key. -/
theorem claim7_categorize (score : String → String → ℚ)
    (vocab : List (String × String)) (merchant : String) :
    (vocab = [] → get_category score vocab merchant = "Others") ∧
    ((∀ k ∈ vocab.map (fun e => pyToLower e.1),
        score (pyToLower merchant) k < 80) →
      get_category score vocab merchant = "Others") ∧
    ((∃ k ∈ vocab.map (fun e => pyToLower e.1),
        (80 : ℚ) ≤ score (pyToLower merchant) k) →
      ∃ k ∈ vocab.map (fun e => pyToLower e.1),
        (80 : ℚ) ≤ score (pyToLower merchant) k ∧
        (∀ k2 ∈ vocab.map (fun e => pyToLower e.1),
          score (pyToLower merchant) k2 ≤ score (pyToLower merchant) k) ∧
        get_category score vocab merchant = lookupCat vocab k) := by
  refine ⟨?_, ?_, ?_⟩
  · rintro rfl
    rfl
  · intro hall
    unfold get_category
    dsimp only
    cases hR : extractOne score (pyToLower merchant)
        (vocab.map (fun e => pyToLower e.1)) 80 with
    | none => rfl
    | some p2 =>
      unfold extractOne at hR
      obtain ⟨hsc, hcut, hmem, -, -⟩ :=
        ((extractOne_fold score (pyToLower merchant) 80
          (vocab.map (fun e => pyToLower e.1)) none (by simp)).2) p2 hR
      rcases hmem with hup | hin
      · exact absurd hup (by simp)
      · exact absurd (hsc ▸ hcut) (not_le.mpr (hall p2.1 hin))
  · intro hex
    cases hR : extractOne score (pyToLower merchant)
        (vocab.map (fun e => pyToLower e.1)) 80 with
    | none =>
      unfold extractOne at hR
      obtain ⟨-, hall⟩ :=
        (extractOne_fold score (pyToLower merchant) 80
          (vocab.map (fun e => pyToLower e.1)) none (by simp)).1 hR
      obtain ⟨k, hk, hk80⟩ := hex
      exact absurd hk80 (not_le.mpr (hall k hk))
    | some p2 =>
      have hR2 := hR
      unfold extractOne at hR2
      obtain ⟨hsc, hcut, hmem, hmax, -⟩ :=
        ((extractOne_fold score (pyToLower merchant) 80
          (vocab.map (fun e => pyToLower e.1)) none (by simp)).2) p2 hR2
      rcases hmem with hup | hin
      · exact absurd hup (by simp)
      · refine ⟨p2.1, hin, hsc ▸ hcut, fun k2 hk2 => hsc ▸ hmax k2 hk2, ?_⟩
        unfold get_category
        dsimp only
        rw [hR]

/-- Claim C7 witness: with an exact-match scorer, a vocabulary whose
single key scores 0 against the query yields the sentinel. -/
theorem claim7_witness :
    get_category scoreExact [("zomato", "Food")] "Uber" = "Others" :=
  (claim7_categorize scoreExact [("zomato", "Food")] "Uber").2.1 (by decide)

/-! ## Claim C8 machinery: `drop_duplicates(keep="last")` and lookup -/

theorem mem_dropDupKeepLast {x : String × String} :
    ∀ {l : List (String × String)}, x ∈ dropDupKeepLast l → x ∈ l
  | [], h => h
  | e :: rest, h => by
    unfold dropDupKeepLast at h
    by_cases hc : rest.any (fun e2 => e2.1 = e.1) = true
    · rw [if_pos hc] at h
      exact List.mem_cons_of_mem _ (mem_dropDupKeepLast h)
    · rw [if_neg hc] at h
      rcases List.mem_cons.mp h with rfl | h2
      · exact List.mem_cons_self ..
      · exact List.mem_cons_of_mem _ (mem_dropDupKeepLast h2)

/-- Appending a fresh entry and deduplicating keeping the last
occurrence removes every earlier entry with the same key and leaves the
new entry at the end. -/
theorem dropDupKeepLast_append_single (e : String × String) :
    ∀ l : List (String × String),
      dropDupKeepLast (l ++ [e]) =
        dropDupKeepLast (l.filter (fun x => x.1 ≠ e.1)) ++ [e]
  | [] => by simp [dropDupKeepLast]
  | a :: l => by
    by_cases hae : a.1 = e.1
    · have h1 : (l ++ [e]).any (fun e2 => e2.1 = a.1) = true := by
        simp only [List.any_eq_true]
        exact ⟨e, List.mem_append_right _ (List.mem_singleton.mpr rfl),
          by simp [hae]⟩
      have h2 : (a :: l).filter (fun x => x.1 ≠ e.1) =
          l.filter (fun x => x.1 ≠ e.1) := by
        simp [List.filter_cons, hae]
      simp only [List.cons_append, dropDupKeepLast, List.append_eq, h1, if_true, h2]
      exact dropDupKeepLast_append_single e l
    · have hany : (l ++ [e]).any (fun e2 => e2.1 = a.1) =
          l.any (fun e2 => e2.1 = a.1) := by
        have : (fun (e2 : String × String) => decide (e2.1 = a.1)) e = false := by
          simp
          exact fun h => hae h.symm
        simp [List.any_append, this]
      have hfilter : (l.filter (fun x => x.1 ≠ e.1)).any (fun e2 => e2.1 = a.1) =
          l.any (fun e2 => e2.1 = a.1) := by
        cases hla : l.any (fun e2 => e2.1 = a.1) with
        | true =>
          obtain ⟨x, hx, hx1⟩ := List.any_eq_true.mp hla
          refine List.any_eq_true.mpr ⟨x, List.mem_filter.mpr ⟨hx, ?_⟩, hx1⟩
          simp only [decide_eq_true_eq] at hx1 ⊢
          rw [hx1]
          exact hae
        | false =>
          cases hfa : (l.filter (fun x => x.1 ≠ e.1)).any (fun e2 => e2.1 = a.1) with
          | false => rfl
          | true =>
            obtain ⟨x, hx, hx1⟩ := List.any_eq_true.mp hfa
            have h3 : l.any (fun e2 => e2.1 = a.1) = true :=
              List.any_eq_true.mpr ⟨x, (List.mem_filter.mp hx).1, hx1⟩
            rw [hla] at h3
            exact absurd h3 (by simp)
      have hcons : (a :: l).filter (fun x => x.1 ≠ e.1) =
          a :: l.filter (fun x => x.1 ≠ e.1) := by
        simp [List.filter_cons, hae]
      simp only [List.cons_append, dropDupKeepLast, List.append_eq, hany, hcons, hfilter]
      cases hla : l.any (fun e2 => e2.1 = a.1) with
      | true =>
        simp only [if_true]
        exact dropDupKeepLast_append_single e l
      | false =>
        simp only [Bool.false_eq_true, if_false]
        rw [dropDupKeepLast_append_single e l]
        rfl

/-- `find?` skips a block on which the predicate is everywhere false. -/
theorem find?_skip {α : Type} (p : α → Bool) :
    ∀ (l1 l2 : List α), (∀ x ∈ l1, p x = false) →
      List.find? p (l1 ++ l2) = List.find? p l2
  | [], l2, _ => rfl
  | a :: l1, l2, h => by
    simp only [List.cons_append, List.find?]
    rw [h a (List.mem_cons_self ..)]
    exact find?_skip p l1 l2 fun x hx => h x (List.mem_cons_of_mem _ hx)

theorem toNat_mkAsciiChar (n : Nat) (h : n < 55296) :
    (mkAsciiChar n h).toNat = n := rfl

theorem pyLowerChar_idem (c : Char) :
    pyLowerChar (pyLowerChar c) = pyLowerChar c := by
  unfold pyLowerChar
  by_cases h : 65 ≤ c.toNat ∧ c.toNat ≤ 90
  · rw [dif_pos h, dif_neg]
    rw [toNat_mkAsciiChar]
    omega
  · rw [dif_neg h]
    rw [dif_neg h]

theorem pyToLower_idem (s : String) : pyToLower (pyToLower s) = pyToLower s := by
  unfold pyToLower strOf
  simp only [List.map_map]
  exact congrArg String.mk (List.map_congr_left fun c _ => pyLowerChar_idem c)

/-- Claim C8: when the vocabulary keys are stored lowercased (as
`add_new_vendor` itself produces them) and the scorer gives the exact
lowercased merchant key a score reaching the cutoff and strictly above
every other string (the defining property of an exact match under a
similarity scorer), then after `add_new_vendor(m, c)` the vocabulary
holds exactly one entry for key `lowercase(m)`, mapped to `c` —
last-write-wins — and `get_category(lowercase(m))` returns `c`. -/
theorem claim8_add_correction (score : String → String → ℚ)
    (vocab : List (String × String)) (m c : String)
    (hwf : ∀ e ∈ vocab, pyToLower e.1 = e.1)
    (hq : (80 : ℚ) ≤ score (pyToLower m) (pyToLower m))
    (hother : ∀ k, k ≠ pyToLower m →
      score (pyToLower m) k < score (pyToLower m) (pyToLower m)) :
    (add_new_vendor vocab m c).filter (fun e => e.1 = pyToLower m) =
      [(pyToLower m, c)] ∧
    get_category score (add_new_vendor vocab m c) (pyToLower m) = c := by
  have hsplit : add_new_vendor vocab m c =
      dropDupKeepLast (vocab.filter (fun x => x.1 ≠ pyToLower m)) ++
        [(pyToLower m, c)] :=
    dropDupKeepLast_append_single (pyToLower m, c) vocab
  have hfront : ∀ x ∈ dropDupKeepLast (vocab.filter (fun x => x.1 ≠ pyToLower m)),
      x ∈ vocab ∧ x.1 ≠ pyToLower m := by
    intro x hx
    have hx2 := mem_dropDupKeepLast hx
    obtain ⟨hxv, hxne⟩ := List.mem_filter.mp hx2
    exact ⟨hxv, by simpa using hxne⟩
  constructor
  · rw [hsplit, List.filter_append]
    have h1 : (dropDupKeepLast (vocab.filter (fun x => x.1 ≠ pyToLower m))).filter
        (fun e => e.1 = pyToLower m) = [] := by
      rw [List.filter_eq_nil_iff]
      intro x hx
      simpa using (hfront x hx).2
    rw [h1]
    simp
  · rw [hsplit]
    unfold get_category
    dsimp only
    have hkeys : (dropDupKeepLast (vocab.filter (fun x => x.1 ≠ pyToLower m)) ++
        [(pyToLower m, c)]).map (fun e => pyToLower e.1) =
        (dropDupKeepLast (vocab.filter (fun x => x.1 ≠ pyToLower m))).map
          (fun e => pyToLower e.1) ++ [pyToLower m] := by
      rw [List.map_append]
      simp [pyToLower_idem]
    rw [hkeys, pyToLower_idem,
      extractOne_append_last score (pyToLower m) 80 _ (pyToLower m) hq ?hlt]
    case hlt =>
      intro x hx
      obtain ⟨y, hy, rfl⟩ := List.mem_map.mp hx
      obtain ⟨hyv, hyne⟩ := hfront y hy
      rw [hwf y hyv]
      exact hother y.1 hyne
    dsimp only
    unfold lookupCat
    rw [find?_skip _ _ [(pyToLower m, c)] ?hskip]
    case hskip =>
      intro x hx
      obtain ⟨hxv, hxne⟩ := hfront x hx
      simp only [decide_eq_false_iff_not]
      rw [hwf x hxv]
      exact hxne
    simp [pyToLower_idem]

/-- Claim C8 witness: adding `("Foo Mart", "Shopping")` over a
lowercase vocabulary that already holds a different category for
`"foo mart"` leaves exactly one `"foo mart"` entry, mapped to
`"Shopping"`, and categorization of `"foo mart"` returns it. -/
theorem claim8_witness :
    (add_new_vendor [("zomato", "Food"), ("foo mart", "Others")] "Foo Mart"
        "Shopping").filter (fun e => e.1 = pyToLower "Foo Mart") =
      [(pyToLower "Foo Mart", "Shopping")] ∧
    get_category scoreExact
      (add_new_vendor [("zomato", "Food"), ("foo mart", "Others")] "Foo Mart"
        "Shopping") (pyToLower "Foo Mart") = "Shopping" :=
  claim8_add_correction scoreExact [("zomato", "Food"), ("foo mart", "Others")]
    "Foo Mart" "Shopping" (by decide) (by decide)
    (fun k hk => by
      unfold scoreExact
      rw [if_neg (fun h => hk h.symm), if_pos rfl]
      decide)

/-! ## Claims -/

/-- Claim C1 (counterexample): on the input line
`"14/08/2025 AMAZON RETAIL 1,152.42 CR"` the line-pattern pipeline does
NOT emit amount `-1152.42`: the amount capture group stops before the
`CR` suffix, so no sign flip happens and the claimed transaction list is
not produced. -/
theorem claim1_counterexample :
    (lineTxns "ACC" "14/08/2025 AMAZON RETAIL 1,152.42 CR").map Txn.amount ≠
      [PyFloat.finite (mkRat (-115242) 100)] := by decide

/-- Claim C1 (amended): the line yields exactly one transaction with
merchant `"AMAZON RETAIL"`, amount `+1152.42` and empty type tag: the
trailing `CR` lies outside the third capture group
`(-?\d[\d,]*\.\d{2})`, so it reaches neither the amount nor the type. -/
theorem claim1_amended :
    lineTxns "ACC" "14/08/2025 AMAZON RETAIL 1,152.42 CR" =
      [⟨"14/08/2025", "AMAZON RETAIL", PyFloat.finite (mkRat 115242 100), "",
        "ACC"⟩] := by decide

/-- Claim C2: when the table strategy accepts at least one row on a
page, the page's result consists exactly of the table rows and the
text-line strategy block is never reached on that page. -/
theorem claim2_table_short_circuit (acct : String) (p : Page)
    (h : pageTableTxns acct p ≠ []) :
    ∃ tr, processPage acct p = some (pageTableTxns acct p, tr) ∧
      Strat.textLine ∉ tr := by
  unfold pageTableTxns at h ⊢
  unfold processPage
  cases hE : effTable p with
  | none => rw [hE] at h; exact absurd rfl h
  | some t =>
    rw [hE] at h
    dsimp only at h ⊢
    by_cases hl : t.length > 1
    · refine ⟨[Strat.table], ?_, by simp⟩
      simp only [if_pos hl]
    · rw [if_neg hl] at h
      exact absurd rfl h

/-- Claim C2 witness at a concrete one-row table page. -/
theorem claim2_witness :
    ∃ tr, processPage "A" pageTable = some (pageTableTxns "A" pageTable, tr) ∧
      Strat.textLine ∉ tr :=
  claim2_table_short_circuit "A" pageTable (by decide)

/-- Claim C3 (counterexample): an exception in `page.extract_text()` on
the first page is caught only by the document-level handler, so the
second page is never processed even though it alone yields a
transaction. -/
theorem claim3_counterexample :
    extractDoc "A" [pageRaise, pageGood] = [] ∧
      extractDoc "A" [pageGood] ≠ [] := by decide

/-- Claim C3 (amended): an exception in `page.extract_table()` is
caught per page and the page falls through to the text strategies,
exactly as if no table had been detected; but an exception escaping the
text or word primitives is caught only at document level: the page
contributes zero rows AND the remaining pages are skipped, the
transactions accumulated so far being returned. -/
theorem claim3_amended (acct : String) :
    (∀ tbl tR tx wR ws,
        processPage acct ⟨true, tbl, tR, tx, wR, ws⟩ =
          processPage acct ⟨false, none, tR, tx, wR, ws⟩) ∧
    (∀ (ps1 : List Page) (p : Page) (ps2 : List Page),
        processPage acct p = none →
        extractDoc acct (ps1 ++ p :: ps2) = extractDoc acct ps1) := by
  constructor
  · intro tbl tR tx wR ws
    rfl
  · intro ps1 p ps2 hp
    exact extractDocGo_append_abort acct p hp ps1 [] ps2

/-- Claim C3 witness: with a good page before and after a raising page,
the accumulated prefix survives and the suffix is dropped. -/
theorem claim3_witness :
    extractDoc "A" ([pageGood] ++ pageRaise :: [pageGood]) =
      extractDoc "A" [pageGood] :=
  (claim3_amended "A").2 [pageGood] pageRaise [pageGood] (by decide)

/-- Claim C4 (counterexample): `"1.00CRDR"` contains both tokens yet is
NOT rejected: `parse_amount_field` still returns a value. -/
theorem claim4_counterexample :
    containsL (normUpper "1.00CRDR") ['C', 'R'] = true ∧
    containsL (normUpper "1.00CRDR") ['D', 'R'] = true ∧
    (parse_amount_field (some "1.00CRDR")).1 ≠ none := by decide

/-- Claim C4 (amended): when both `CR` and `DR` are present, neither
flag is set, so the input is not rejected; the cleaned text is parsed
as usual, with its own sign and an empty type tag. -/
theorem claim4_amended (s : String)
    (hcr : containsL (normUpper s) ['C', 'R'] = true)
    (hdr : containsL (normUpper s) ['D', 'R'] = true) :
    parse_amount_field (some s) = (pyFloat? (amountClean (normUpper s)), "") := by
  unfold parse_amount_field
  dsimp only
  rw [hcr, hdr]
  simp only [Bool.not_true, Bool.and_false, if_false]
  by_cases hE : (amountClean (normUpper s)).isEmpty
  · rw [if_pos hE]
    rw [List.isEmpty_iff] at hE
    rw [hE]
    rfl
  · rw [if_neg hE]
    cases pyFloat? (amountClean (normUpper s)) <;> rfl

/-- Claim C4 witness at `"1.00CRDR"`. -/
theorem claim4_witness :
    parse_amount_field (some "1.00CRDR") =
      (pyFloat? (amountClean (normUpper "1.00CRDR")), "") :=
  claim4_amended "1.00CRDR" (by decide) (by decide)

/-- Negated absolute value of a Python float is never positive
(`-abs(inf) = -inf` included). -/
theorem pyNegAbs_nonpos (v : PyFloat) :
    PyFloat.neg (PyFloat.abs v) ≤ PyFloat.finite 0 := by
  cases v with
  | finite q => exact neg_nonpos.mpr (abs_nonneg q)
  | inf => trivial
  | negInf => trivial

/-- Absolute value of a Python float is never negative
(`abs(-inf) = inf` included). -/
theorem pyAbs_nonneg (v : PyFloat) : PyFloat.finite 0 ≤ PyFloat.abs v := by
  cases v with
  | finite q => exact abs_nonneg q
  | inf => trivial
  | negInf => trivial

/-- Claim C5 (counterexample): `"1.00CRDR"` is accepted, contains `CR`,
and yields the positive value `1`, violating "contains `CR` implies
value ≤ 0" as claimed. -/
theorem claim5_counterexample :
    containsL (normUpper "1.00CRDR") ['C', 'R'] = true ∧
    (parse_amount_field (some "1.00CRDR")).1 = some (PyFloat.finite 1) ∧
    ¬((1 : ℚ) ≤ 0) := by decide

/-- Claim C5 (amended): for every accepted amount string, containing
`CR` and not `DR` forces a value ≤ 0, and containing `DR` and not `CR`
forces a value ≥ 0, in the Python float order (the both-token case
constrains nothing). -/
theorem claim5_amended (s : String) (v : PyFloat) (t : String)
    (h : parse_amount_field (some s) = (some v, t)) :
    (containsL (normUpper s) ['C', 'R'] = true →
      containsL (normUpper s) ['D', 'R'] = false → v ≤ PyFloat.finite 0) ∧
    (containsL (normUpper s) ['D', 'R'] = true →
      containsL (normUpper s) ['C', 'R'] = false → PyFloat.finite 0 ≤ v) := by
  unfold parse_amount_field at h
  dsimp only at h
  by_cases hE : (amountClean (normUpper s)).isEmpty
  · rw [if_pos hE] at h
    exact absurd h (by simp)
  · rw [if_neg hE] at h
    cases hF : pyFloat? (amountClean (normUpper s)) with
    | none => rw [hF] at h; exact absurd h (by simp)
    | some val =>
      rw [hF] at h
      dsimp only at h
      by_cases hcr : (containsL (normUpper s) ['C', 'R'] &&
          !containsL (normUpper s) ['D', 'R']) = true
      · rw [if_pos hcr] at h
        obtain ⟨hv, -⟩ := Prod.mk.injEq .. ▸ h
        constructor
        · intro _ _
          rw [← Option.some_inj.mp hv]
          exact pyNegAbs_nonpos val
        · intro hd hc
          rw [hc] at hcr
          simp at hcr
      · rw [if_neg hcr] at h
        by_cases hdr : (containsL (normUpper s) ['D', 'R'] &&
            !containsL (normUpper s) ['C', 'R']) = true
        · rw [if_pos hdr] at h
          obtain ⟨hv, -⟩ := Prod.mk.injEq .. ▸ h
          constructor
          · intro hc hd
            rw [hc, hd] at hcr
            simp at hcr
          · intro _ _
            rw [← Option.some_inj.mp hv]
            exact pyAbs_nonneg val
        · constructor
          · intro hc hd
            rw [hc, hd] at hcr
            simp at hcr
          · intro hd hc
            rw [hc, hd] at hdr
            simp at hdr

/-- Claim C5 witness at `"100 CR"` (value `-100 ≤ 0`). -/
theorem claim5_witness :
    PyFloat.finite (-100) ≤ PyFloat.finite 0 ∧
      PyFloat.finite 0 ≤ PyFloat.finite 450 :=
  ⟨(claim5_amended "100 CR" (PyFloat.finite (-100)) "CR" (by decide)).1
      (by decide) (by decide),
   (claim5_amended "INR 450.00 DR" (PyFloat.finite 450) "DR" (by decide)).2
      (by decide) (by decide)⟩

/-- Claim C6 (counterexample): a document yielding zero transactions is
returned empty; the spec-modelled OCR pipeline (which would re-apply
the line extractor to OCR text and replace the empty result) produces a
different, nonempty result, so the code does not invoke any OCR
fallback. -/
theorem claim6_counterexample :
    extractDoc "A" [pageBlank] = [] ∧
    specExtractWithOCR (fun _ => "05/08/2025 UBER TRIP 210.50") "A" [pageBlank] ≠
      extractDoc "A" [pageBlank] := by decide

/-- Claim C6 (amended): the result of extraction is always exactly the
per-page accumulation — it is never replaced — and the
"no transactions" warning is emitted precisely when that accumulation
is empty; no OCR fallback exists in the code. -/
theorem claim6_amended (acct : String) (pages : List Page) :
    (extractResult acct pages).1 = extractDoc acct pages ∧
    ((extractResult acct pages).2 = true ↔ extractDoc acct pages = []) := by
  refine ⟨rfl, ?_⟩
  simp [extractResult, List.isEmpty_iff]

/-! ## Claim C9 machinery: emitted merchants carry no outer whitespace -/

theorem pyStripL_eq_rdropWhile (l : List Char) :
    pyStripL l = List.rdropWhile isPySpace (List.dropWhile isPySpace l) := rfl

theorem pyStripL_idem (l : List Char) : pyStripL (pyStripL l) = pyStripL l := by
  rw [pyStripL_eq_rdropWhile, pyStripL_eq_rdropWhile]
  have h1 : List.dropWhile isPySpace
      (List.rdropWhile isPySpace (List.dropWhile isPySpace l)) =
      List.rdropWhile isPySpace (List.dropWhile isPySpace l) := by
    rw [List.dropWhile_eq_self_iff]
    intro hl
    obtain ⟨t, ht⟩ := List.rdropWhile_prefix isPySpace (List.dropWhile isPySpace l)
    have hlen : 0 < (List.dropWhile isPySpace l).length := by
      rw [← ht, List.length_append]
      omega
    have hget : (List.rdropWhile isPySpace (List.dropWhile isPySpace l)).get ⟨0, hl⟩ =
        (List.dropWhile isPySpace l).get ⟨0, hlen⟩ := by
      rw [← List.get_append 0 hl]
      exact List.get_of_eq ht _
    rw [hget]
    exact List.dropWhile_get_zero_not isPySpace l hlen
  rw [h1, List.rdropWhile_idempotent]

theorem pyStrip_idem (s : String) : pyStrip (pyStrip s) = pyStrip s :=
  congrArg strOf (pyStripL_idem s.data)

theorem rowTxn?_merchant_trimmed (acct : String) (hs : List String)
    (row : List (Option String)) (t : Txn) (h : rowTxn? acct hs row = some t) :
    pyStrip t.merchant = t.merchant := by
  unfold rowTxn? at h
  dsimp only at h
  split at h
  · split at h
    · obtain rfl := (Option.some_inj.mp h).symm
      exact pyStrip_idem _
    · exact absurd h (by simp)
  · exact absurd h (by simp)

theorem tableRows_merchant_trimmed (acct : String)
    (table : List (List (Option String))) (t : Txn) (h : t ∈ tableRows acct table) :
    pyStrip t.merchant = t.merchant := by
  unfold tableRows at h
  match table with
  | [] => exact absurd h (by simp)
  | headers :: rows =>
    obtain ⟨row, -, hrow⟩ := List.mem_filterMap.mp h
    exact rowTxn?_merchant_trimmed acct _ row t hrow

theorem lineTxnPats_merchant_trimmed (acct : String) :
    ∀ (pats : List (List Char → Option (List Char × List Char)))
      (line : List Char) (t : Txn), lineTxnPats acct pats line = some t →
      pyStrip t.merchant = t.merchant
  | [], _, _, h => absurd h (by simp [lineTxnPats])
  | pm :: pms, line, t, h => by
    unfold lineTxnPats at h
    cases hm : matchLinePat pm line with
    | none =>
      rw [hm] at h
      exact lineTxnPats_merchant_trimmed acct pms line t h
    | some trip =>
      rw [hm] at h
      dsimp only at h
      split at h
      · obtain rfl := (Option.some_inj.mp h).symm
        exact pyStrip_idem (strOf trip.2.1)
      · exact lineTxnPats_merchant_trimmed acct pms line t h

theorem lineTxns_merchant_trimmed (acct : String) (text : String) (t : Txn)
    (h : t ∈ lineTxns acct text) : pyStrip t.merchant = t.merchant := by
  unfold lineTxns at h
  obtain ⟨line, -, hline⟩ := List.mem_filterMap.mp h
  exact lineTxnPats_merchant_trimmed acct linePatterns line t hline

theorem pyStrip_strOf_ite (b : Bool) (j : List Char) :
    pyStrip (strOf (if b then pyStripL j else [])) =
      strOf (if b then pyStripL j else []) := by
  cases b
  · rfl
  · exact congrArg strOf (pyStripL_idem j)

theorem spatialRowTxn?_merchant_trimmed (acct : String) (fields : List (List Char))
    (t : Txn) (h : spatialRowTxn? acct fields = some t) :
    pyStrip t.merchant = t.merchant := by
  unfold spatialRowTxn? at h
  dsimp only at h
  cases haf : findAmtField fields.reverse with
  | none =>
    rw [haf] at h
    exact absurd h (by simp)
  | some af =>
    cases hdf : findDateField fields with
    | none =>
      rw [haf, hdf] at h
      exact absurd h (by simp)
    | some df =>
      rw [haf, hdf] at h
      dsimp only at h
      split at h
      · obtain rfl := (Option.some_inj.mp h).symm
        exact pyStrip_strOf_ite _ _
      · exact absurd h (by simp)

theorem spatialRows_merchant_trimmed (acct : String) (words : List Word) (t : Txn)
    (h : t ∈ spatialRows acct words) : pyStrip t.merchant = t.merchant := by
  unfold spatialRows at h
  split at h
  · obtain ⟨tk, -, htk⟩ := List.mem_filterMap.mp h
    exact spatialRowTxn?_merchant_trimmed acct _ t htk
  · exact absurd h (by simp)

theorem processPage_merchant_trimmed (acct : String) (p : Page) (ts : List Txn)
    (tr : List Strat) (h : processPage acct p = some (ts, tr)) (t : Txn)
    (ht : t ∈ ts) : pyStrip t.merchant = t.merchant := by
  have htext : ∀ ts2 tr2, processPageText acct p = some (ts2, tr2) → t ∈ ts2 →
      pyStrip t.merchant = t.merchant := by
    intro ts2 tr2 h2 ht2
    unfold processPageText at h2
    by_cases htr : p.textRaises = true
    · rw [if_pos htr] at h2
      exact absurd h2 (by simp)
    · rw [if_neg htr] at h2
      dsimp only at h2
      by_cases hts : (!(if !(pyStripL (p.text.getD "").data).isEmpty then
          lineTxns acct (p.text.getD "") else []).isEmpty) = true
      · rw [if_pos hts] at h2
        obtain ⟨rfl, rfl⟩ := Prod.mk.inj (Option.some_inj.mp h2)
        by_cases hne : (!(pyStripL (p.text.getD "").data).isEmpty) = true
        · rw [if_pos hne] at ht2
          exact lineTxns_merchant_trimmed acct _ t ht2
        · rw [if_neg hne] at ht2
          exact absurd ht2 (by simp)
      · rw [if_neg hts] at h2
        by_cases hwr : p.wordsRaises = true
        · rw [if_pos hwr] at h2
          exact absurd h2 (by simp)
        · rw [if_neg hwr] at h2
          obtain ⟨rfl, rfl⟩ := Prod.mk.inj (Option.some_inj.mp h2)
          exact spatialRows_merchant_trimmed acct _ t ht2
  unfold processPage at h
  cases hE : effTable p with
  | none =>
    rw [hE] at h
    exact htext ts tr h ht
  | some tgrid =>
    rw [hE] at h
    dsimp only at h
    by_cases hl : tgrid.length > 1
    · rw [if_pos hl] at h
      obtain ⟨rfl, rfl⟩ := Prod.mk.inj (Option.some_inj.mp h)
      exact tableRows_merchant_trimmed acct tgrid t ht
    · rw [if_neg hl] at h
      exact htext ts tr h ht

theorem extractDocGo_merchant_trimmed (acct : String) :
    ∀ (ps : List Page) (acc : List Txn),
      (∀ t ∈ acc, pyStrip t.merchant = t.merchant) →
      ∀ t ∈ extractDocGo acct acc ps, pyStrip t.merchant = t.merchant
  | [], acc, hacc, t, ht => hacc t ht
  | p :: ps, acc, hacc, t, ht => by
    unfold extractDocGo at ht
    cases hp : processPage acct p with
    | none =>
      rw [hp] at ht
      exact hacc t ht
    | some pr =>
      rw [hp] at ht
      refine extractDocGo_merchant_trimmed acct ps (acc ++ pr.1) ?_ t ht
      intro t2 ht2
      rcases List.mem_append.mp ht2 with h2 | h2
      · exact hacc t2 h2
      · exact processPage_merchant_trimmed acct p pr.1 pr.2 (by rw [hp]) t2 h2

/-- Claim C9 (counterexample): a table row whose description cell is a
single space is accepted (the cell is truthy) and emits a transaction
whose merchant is the empty string, contradicting "never empty". -/
theorem claim9_counterexample :
    (extractDoc "A" [pageBlankDesc]).map Txn.merchant = [""] := by decide

/-- Claim C9 (amended): every transaction emitted by any strategy has a
whitespace-trimmed merchant (stripping it again changes nothing), but
the merchant may be empty. -/
theorem claim9_merchant_trimmed (acct : String) (pages : List Page) (t : Txn)
    (h : t ∈ extractDoc acct pages) : pyStrip t.merchant = t.merchant :=
  extractDocGo_merchant_trimmed acct pages [] (by simp) t h

/-- Claim C9 witness at the concrete text page. -/
theorem claim9_witness :
    pyStrip (Txn.merchant
        ⟨"01/08/2025", "SWIGGY ORDER", PyFloat.finite 452, "", "A"⟩) =
      Txn.merchant ⟨"01/08/2025", "SWIGGY ORDER", PyFloat.finite 452, "", "A"⟩ :=
  claim9_merchant_trimmed "A" [pageGood] _ (by decide)

set_option maxRecDepth 8000 in
/-- Claim C10 (counterexample): on a 400-digit input, `float()` does
not raise and does not yield a finite value: it overflows, and
`parse_amount_field` returns the non-finite `inf` — refuting "a finite
float" as claimed. -/
theorem claim10_counterexample :
    parse_amount_field (some (strOf (List.replicate 400 '9'))) =
      (some PyFloat.inf, "") := by decide

/-- Claim C10 (amended): `parse_amount_field` is total and never
raises: for every input, including `None` and strings with no digits or
only stripped tokens, it returns either the rejection pair `(none, "")`
or a float value — finite, or an infinity when the cleaned decimal
magnitude exceeds the double range — with a type tag among `"DR"`,
`"CR"`, `""`. -/
theorem claim10_total (s : Option String) :
    parse_amount_field s = (none, "") ∨
    ∃ v : PyFloat, (parse_amount_field s).1 = some v ∧
      ((parse_amount_field s).2 = "DR" ∨ (parse_amount_field s).2 = "CR" ∨
        (parse_amount_field s).2 = "") := by
  unfold parse_amount_field
  cases s with
  | none => exact Or.inl rfl
  | some s0 =>
    dsimp only
    by_cases hE : (amountClean (normUpper s0)).isEmpty
    · rw [if_pos hE]
      exact Or.inl rfl
    · rw [if_neg hE]
      cases pyFloat? (amountClean (normUpper s0)) with
      | none => exact Or.inl rfl
      | some val =>
        dsimp only
        by_cases hcr : (containsL (normUpper s0) ['C', 'R'] &&
            !containsL (normUpper s0) ['D', 'R']) = true
        · rw [if_pos hcr]
          exact Or.inr ⟨PyFloat.neg (PyFloat.abs val), rfl, Or.inr (Or.inl rfl)⟩
        · rw [if_neg hcr]
          by_cases hdr : (containsL (normUpper s0) ['D', 'R'] &&
              !containsL (normUpper s0) ['C', 'R']) = true
          · rw [if_pos hdr]
            exact Or.inr ⟨PyFloat.abs val, rfl, Or.inl rfl⟩
          · rw [if_neg hdr]
            exact Or.inr ⟨val, rfl, Or.inr (Or.inr rfl)⟩

end ExpenseAnalyzer
